import Mathlib

/-!
# Verification of the rpick selection engine

A shallow embedding of `src/lib.rs` of the rpick repository.  The engine
picks an item from a named category of choices, running a consent loop that
draws candidates and asks the user to accept or reject them, and mutates the
category's persisted state on acceptance.

The two sources of external nondeterminism — the random number generator and
the human answering the consent prompts — are modelled as oracle streams
indexed by the loop iteration counter: `rand : Nat → Nat` supplies the
uniform draw value for each weighted draw, `gauss : Nat → Nat` supplies the
(already floored, absolute-valued) Gaussian index sample, and
`consent : Nat → Bool` supplies the user's answers.  The unbounded consent
loops are modelled with an explicit fuel parameter; exhausting fuel is
reported as a distinguished outcome, never silently conflated with the
code's own failure modes.
-/

set_option maxHeartbeats 1000000

/-- Represents an individual choice for the inventory model
(`pub struct InventoryChoice`): a name and its current number of tickets. -/
structure InventoryChoice where
  name : String
  tickets : Nat
  deriving DecidableEq, Repr

/-- Represents an individual choice for the lottery model
(`pub struct LotteryChoice`): a name, its current tickets, and the weight
added to its tickets each time it is not picked. -/
structure LotteryChoice where
  name : String
  tickets : Nat
  weight : Nat
  deriving DecidableEq, Repr

/-- Represents an individual choice for the weighted model
(`pub struct WeightedChoice`): a name and its selection weight. -/
structure WeightedChoice where
  name : String
  weight : Nat
  deriving DecidableEq, Repr

/-- Returned in the event that an invalid parameter was used in the API
(`struct ValueError`). -/
structure ValueError where
  message : String
  deriving DecidableEq, Repr

/-- A category of items that can be chosen from (`pub enum ConfigCategory`);
one variant per supported algorithm. -/
inductive ConfigCategory where
  | even (choices : List String)
  | gaussian (stddev_scaling_factor : Float) (choices : List String)
  | inventory (choices : List InventoryChoice)
  | lottery (choices : List LotteryChoice)
  | lru (choices : List String)
  | weighted (choices : List WeightedChoice)
  deriving Repr

/-- Observable interaction events of the consent loop: one `prompt` per call
of `ui.prompt_choice` (recording the pool size at the moment of the draw, the
drawn candidate's original index and name, and the user's answer), and one
`info` per call of `ui.info`. -/
inductive Event where
  | prompt (poolSize : Nat) (index : Nat) (name : String) (accepted : Bool)
  | info (message : String)
  deriving DecidableEq, Repr

/-- Result of the shared weighted consent loop `pick_weighted_common`:
the accepted candidate's original index (`success`), the failure of the
weighted draw — the `.unwrap()` on `choose_weighted` panicking
(`drawError`) — or exhaustion of the fuel bounding our model of the
unbounded loop (`timeout`). -/
inductive PwcResult where
  | success (index : Nat)
  | drawError
  | timeout
  deriving DecidableEq, Repr

/-- Rust's `Iterator::enumerate`, generalized to start at index `n`. -/
def enumFrom (n : Nat) : List α → List (Nat × α)
  | [] => []
  | a :: rest => (n, a) :: enumFrom (n + 1) rest

/-- Rust's `Iterator::enumerate`. -/
def enumerate (l : List α) : List (Nat × α) :=
  enumFrom 0 l

/-- Rust's `Iterator::position`: the index of the first element satisfying
the predicate. -/
def position (p : α → Bool) : List α → Option Nat
  | [] => none
  | a :: rest => if p a then some 0 else (position p rest).map (· + 1)

/-- The candidate type handed to `pick_weighted_common`:
`((original index, name), weight)`, mirroring the Rust
`((usize, &String), u64)` tuples. -/
abbrev Candidate := (Nat × String) × Nat

/-- Total weight of a candidate pool. -/
def totalWeight (cands : List Candidate) : Nat :=
  (cands.map (fun c => c.2)).sum

/-- Cumulative-weight lookup: return the first candidate whose cumulative
weight strictly exceeds `r`. -/
def pickByCumulative : List Candidate → Nat → Option Candidate
  | [], _ => none
  | c :: rest, r => if r < c.2 then some c else pickByCumulative rest (r - c.2)

/-- Model of `choose_weighted` from the rand crate: draw one element with
probability proportional to its weight by taking a uniform value in
`[0, totalWeight)` (supplied as `r % totalWeight`) and scanning cumulative
weights.  Fails (returns `none`, where the Rust `Result` is `Err`) exactly
when the total weight is zero — in particular on an empty pool. -/
def chooseWeighted (cands : List Candidate) (r : Nat) : Option Candidate :=
  if totalWeight cands = 0 then none
  else pickByCumulative cands (r % totalWeight cands)

/-- Removal of the drawn candidate from the pool by name match:
`candidates.remove(candidates.iter().position(|x| (x.0).1 == choice).unwrap())`. -/
def removeDrawn (cands : List Candidate) (name : String) : List Candidate :=
  match position (fun x => x.1.2 == name) cands with
  | some i => cands.eraseIdx i
  | none => cands

/-- The loop of `pick_weighted_common`, unfolded on fuel.  `initC` is the
output of `initialize_candidates()`, `cands` the current working pool, and
`t` the iteration counter indexing the oracle streams.  Each iteration draws
a candidate, prompts for consent, and on rejection either removes the drawn
candidate (pool larger than one) or expresses disapproval (`ui.info "🤨"`)
and resets the pool to `initC`. -/
def pickWeightedCommonAux (initC : List Candidate) (rand : Nat → Nat)
    (consent : Nat → Bool) : List Candidate → Nat → Nat → PwcResult × List Event
  | _, _, 0 => (PwcResult.timeout, [])
  | cands, t, fuel + 1 =>
    match chooseWeighted cands (rand t) with
    | none => (PwcResult.drawError, [])
    | some c =>
      let ev := Event.prompt cands.length c.1.1 c.1.2 (consent t)
      if consent t then
        (PwcResult.success c.1.1, [ev])
      else if cands.length > 1 then
        let r := pickWeightedCommonAux initC rand consent (removeDrawn cands c.1.2) (t + 1) fuel
        (r.1, ev :: r.2)
      else
        let r := pickWeightedCommonAux initC rand consent initC (t + 1) fuel
        (r.1, ev :: Event.info "🤨" :: r.2)

/-- `pick_weighted_common`: the common weighted choice algorithm used as the
core of the Even, Weighted, Inventory and Lottery models.  Returns the
accepted candidate's original index together with the interaction trace. -/
def pick_weighted_common (initialize_candidates : List Candidate)
    (rand : Nat → Nat) (consent : Nat → Bool) (fuel : Nat) : PwcResult × List Event :=
  pickWeightedCommonAux initialize_candidates rand consent initialize_candidates 0 fuel

/-- The candidate pool built by `pick_even`: every entry with weight 1. -/
def initEven (choices : List String) : List Candidate :=
  (enumerate choices).map (fun x => ((x.1, x.2), 1))

/-- `pick_even`: even-distribution pick; delegates to the common core and
returns the choice at the accepted index. -/
def pick_even (choices : List String) (rand : Nat → Nat) (consent : Nat → Bool)
    (fuel : Nat) : Option String :=
  match (pick_weighted_common (initEven choices) rand consent fuel).1 with
  | PwcResult.success index => choices.get? index
  | _ => none

/-- The candidate pool built by `pick_weighted`: every entry with its
configured weight (zero-weight entries are not filtered out). -/
def initWeighted (choices : List WeightedChoice) : List Candidate :=
  (enumerate choices).map (fun x => ((x.1, x.2.name), x.2.weight))

/-- `pick_weighted`: weighted pick; delegates to the common core and returns
the name at the accepted index.  The persisted choices are immutable here
(the Rust function borrows `&[WeightedChoice]`). -/
def pick_weighted (choices : List WeightedChoice) (rand : Nat → Nat)
    (consent : Nat → Bool) (fuel : Nat) : Option String :=
  match (pick_weighted_common (initWeighted choices) rand consent fuel).1 with
  | PwcResult.success index => (choices.get? index).map (fun c => c.name)
  | _ => none

/-- The candidate pool built by `pick_inventory`: entries with
`tickets > 0`, weighted by their tickets. -/
def initInventory (choices : List InventoryChoice) : List Candidate :=
  ((enumerate choices).filter (fun x => 0 < x.2.tickets)).map
    (fun x => ((x.1, x.2.name), x.2.tickets))

/-- `pick_inventory`: inventory pick; delegates to the common core, then
decrements the winner's tickets by 1 (`choices[index].tickets -= 1`) and
returns the winner's name. -/
def pick_inventory (choices : List InventoryChoice) (rand : Nat → Nat)
    (consent : Nat → Bool) (fuel : Nat) : Option (String × List InventoryChoice) :=
  match (pick_weighted_common (initInventory choices) rand consent fuel).1 with
  | PwcResult.success index =>
    match choices.get? index with
    | some c => some (c.name, choices.set index ⟨c.name, c.tickets - 1⟩)
    | none => none
  | _ => none

/-- The candidate pool built by `pick_lottery`: entries with `tickets > 0`,
weighted by their tickets. -/
def initLottery (choices : List LotteryChoice) : List Candidate :=
  ((enumerate choices).filter (fun x => 0 < x.2.tickets)).map
    (fun x => ((x.1, x.2.name), x.2.tickets))

/-- `pick_lottery`: lottery pick; delegates to the common core, then adds
each entry's own weight to its tickets (`choice.tickets += choice.weight`
over all entries, the winner included), zeroes the winner's tickets
(`choices[index].tickets = 0`), and returns the winner's name. -/
def pick_lottery (choices : List LotteryChoice) (rand : Nat → Nat)
    (consent : Nat → Bool) (fuel : Nat) : Option (String × List LotteryChoice) :=
  match (pick_weighted_common (initLottery choices) rand consent fuel).1 with
  | PwcResult.success index =>
    let accrued := choices.map (fun c => { c with tickets := c.tickets + c.weight })
    match accrued.get? index with
    | some c => some (c.name, accrued.set index { c with tickets := 0 })
    | none => none
  | _ => none

/-- The loop of `pick_gaussian`, unfolded on fuel.  `choices` is the
persisted list, `cands` the working copy, `t` the iteration counter.  Each
iteration samples an index (the folded, floored Gaussian sample, supplied by
the `gauss` oracle); an out-of-range index redraws without consuming a
rejection.  On acceptance the accepted value's first position in the
persisted list is returned (`choices.iter().position(|x| x == value)`); on
rejection the value is removed from the working copy, or — when only one
candidate remains — disapproval is expressed and the working copy is reset
to the full persisted list. -/
def gaussianLoop (choices : List String) (gauss : Nat → Nat)
    (consent : Nat → Bool) : List String → Nat → Nat → Option Nat
  | _, _, 0 => none
  | cands, t, fuel + 1 =>
    match cands.get? (gauss t) with
    | some value =>
      if consent t then
        position (fun x => x == value) choices
      else if cands.length > 1 then
        match position (fun x => x == value) cands with
        | some i => gaussianLoop choices gauss consent (cands.eraseIdx i) (t + 1) fuel
        | none => none
      else
        gaussianLoop choices gauss consent choices (t + 1) fuel
    | none => gaussianLoop choices gauss consent cands (t + 1) fuel

/-- `pick_gaussian`: runs the Gaussian loop on a working copy of the
persisted list, then removes the accepted value from the persisted list and
appends it at the end (`choices.remove(index); choices.push(value)`),
returning the accepted value and the updated list. -/
def pick_gaussian (choices : List String) (gauss : Nat → Nat)
    (consent : Nat → Bool) (fuel : Nat) : Option (String × List String) :=
  match gaussianLoop choices gauss consent choices 0 fuel with
  | some index =>
    match choices.get? index with
    | some value => some (value, choices.eraseIdx index ++ [value])
    | none => none
  | none => none

/-- The front-to-back scan of `pick_lru`: prompt for each entry in turn
(consuming one consent answer per prompt, starting at counter `t`), and
return the position of the first accepted entry, or `none` when the whole
list is rejected. -/
def scanForConsent (consent : Nat → Bool) : List String → Nat → Nat → Option Nat
  | [], _, _ => none
  | _ :: rest, t, i =>
    if consent t then some i else scanForConsent consent rest (t + 1) (i + 1)

/-- `pick_lru`: scan the persisted list front to back; on acceptance at
index `i`, remove the entry at `i` and append it at the end, returning it.
If the whole list is rejected, express disapproval and restart the scan
(fuel bounds the number of scans). -/
def pick_lru (choices : List String) (consent : Nat → Bool) :
    Nat → Nat → Option (String × List String)
  | 0, _ => none
  | fuel + 1, t =>
    match scanForConsent consent choices t 0 with
    | some i =>
      match choices.get? i with
      | some chosen => some (chosen, choices.eraseIdx i ++ [chosen])
      | none => none
    | none => pick_lru choices consent fuel (t + choices.length)

/-- The external oracle streams consumed by a pick: the weighted-draw
values, the Gaussian index samples, and the user's consent answers. -/
structure Oracles where
  rand : Nat → Nat
  gauss : Nat → Nat
  consent : Nat → Bool

/-- Dispatch of `pick` on the category's variant, returning the chosen name
and the category's state after the pick. -/
def pickCategory (cat : ConfigCategory) (o : Oracles) (fuel : Nat) :
    Option (String × ConfigCategory) :=
  match cat with
  | ConfigCategory.even choices =>
    (pick_even choices o.rand o.consent fuel).map
      (fun name => (name, ConfigCategory.even choices))
  | ConfigCategory.gaussian ssf choices =>
    (pick_gaussian choices o.gauss o.consent fuel).map
      (fun r => (r.1, ConfigCategory.gaussian ssf r.2))
  | ConfigCategory.inventory choices =>
    (pick_inventory choices o.rand o.consent fuel).map
      (fun r => (r.1, ConfigCategory.inventory r.2))
  | ConfigCategory.lottery choices =>
    (pick_lottery choices o.rand o.consent fuel).map
      (fun r => (r.1, ConfigCategory.lottery r.2))
  | ConfigCategory.lru choices =>
    (pick_lru choices o.consent fuel 0).map
      (fun r => (r.1, ConfigCategory.lru r.2))
  | ConfigCategory.weighted choices =>
    (pick_weighted choices o.rand o.consent fuel).map
      (fun name => (name, ConfigCategory.weighted choices))

/-- Lookup in the configuration mapping (`config.get_mut(&category)`),
modelled on an association list. -/
def configGet : List (String × ConfigCategory) → String → Option ConfigCategory
  | [], _ => none
  | (k, v) :: rest, key => if k == key then some v else configGet rest key

/-- In-place update of the configuration mapping at a key. -/
def configSet : List (String × ConfigCategory) → String → ConfigCategory →
    List (String × ConfigCategory)
  | [], _, _ => []
  | (k, v) :: rest, key, newV =>
    if k == key then (k, newV) :: rest else (k, v) :: configSet rest key newV

/-- `Engine::pick`: look the category up, dispatch on its variant, and
mutate it in place.  A missing category yields
`ValueError("Category {} not found in config.")` and leaves the
configuration untouched.  The second component is the configuration after
the call (the `&mut` parameter's final state). -/
def pick (config : List (String × ConfigCategory)) (category : String)
    (o : Oracles) (fuel : Nat) :
    Except ValueError (Option String) × List (String × ConfigCategory) :=
  match configGet config category with
  | some cat =>
    match pickCategory cat o fuel with
    | some (name, cat2) => (Except.ok (some name), configSet config category cat2)
    | none => (Except.ok none, config)
  | none =>
    (Except.error ⟨"Category " ++ category ++ " not found in config."⟩, config)

/-- Whether a trace starts with the fixed disapproval notification. -/
def startsWithDisapproval : List Event → Bool
  | Event.info m :: _ => m == "🤨"
  | _ => false

/-- Well-timedness of disapproval notifications in an interaction trace: an
`info` message appears exactly immediately after a prompt that was rejected
while the pool held exactly one candidate, and that message is the fixed
disapproval message.  Rejecting with more than one candidate left, or
accepting, is never followed directly by an `info`. -/
def disapprovalWellTimed : List Event → Bool
  | [] => true
  | Event.info _ :: _ => false
  | Event.prompt sz _ _ acc :: rest =>
    if acc then disapprovalWellTimed rest
    else if sz == 1 then startsWithDisapproval rest && disapprovalWellTimed rest.tail
    else disapprovalWellTimed rest
termination_by l => l.length
decreasing_by
  all_goals simp_arith [List.length_tail]

example : pick_lottery
    [⟨"this", 1, 1⟩, ⟨"that", 2, 4⟩, ⟨"the other", 3, 9⟩]
    (fun _ => 0) (fun _ => true) 1 =
    some ("this", [⟨"this", 0, 1⟩, ⟨"that", 6, 4⟩, ⟨"the other", 12, 9⟩]) := by
  decide

example : pick_inventory [⟨"z", 0⟩, ⟨"a", 2⟩] (fun _ => 0) (fun _ => true) 1 =
    some ("a", [⟨"z", 0⟩, ⟨"a", 1⟩]) := by decide

example : pick_lru ["this", "that", "the other"] (fun t => t == 1) 1 0 =
    some ("that", ["this", "the other", "that"]) := by decide

example : pick_gaussian ["a", "b", "c"] (fun _ => 1) (fun _ => true) 1 =
    some ("b", ["a", "c", "b"]) := by decide

example : (pick_weighted_common (initWeighted [⟨"a", 1⟩, ⟨"b", 0⟩])
    (fun _ => 0) (fun _ => false) 5).1 = PwcResult.drawError := by decide

/-! ## List-level helper lemmas -/

theorem position_get? (p : α → Bool) :
    ∀ (l : List α) (i : Nat), position p l = some i →
      ∃ a, l.get? i = some a ∧ p a = true := by
  intro l
  induction l with
  | nil => intro i h; simp [position] at h
  | cons a rest ih =>
    intro i h
    by_cases hp : p a
    · simp [position, hp] at h
      subst h
      exact ⟨a, rfl, hp⟩
    · simp [position, hp] at h
      obtain ⟨j, hj, hji⟩ := h
      subst hji
      obtain ⟨b, hb, hpb⟩ := ih j hj
      exact ⟨b, by simpa using hb, hpb⟩

theorem position_of_mem (p : α → Bool) :
    ∀ (l : List α) (a : α), a ∈ l → p a = true → ∃ i, position p l = some i := by
  intro l
  induction l with
  | nil => intro a h; simp at h
  | cons b rest ih =>
    intro a h hp
    by_cases hpb : p b
    · exact ⟨0, by simp [position, hpb]⟩
    · rcases List.mem_cons.mp h with h | h
      · subst h; exact absurd hp (by simp [hpb])
      · obtain ⟨i, hi⟩ := ih a h hp
        exact ⟨i + 1, by simp [position, hpb, hi]⟩

theorem mem_of_mem_eraseIdx :
    ∀ (l : List α) (i : Nat) (a : α), a ∈ l.eraseIdx i → a ∈ l := by
  intro l
  induction l with
  | nil => intro i a h; simp [List.eraseIdx] at h
  | cons b rest ih =>
    intro i a h
    cases i with
    | zero => exact List.mem_cons_of_mem b h
    | succ n =>
      rcases List.mem_cons.mp h with h | h
      · exact h ▸ List.mem_cons_self a rest
      · exact List.mem_cons_of_mem b (ih n a h)

theorem length_eraseIdx_add_one :
    ∀ (l : List α) (i : Nat), i < l.length → (l.eraseIdx i).length + 1 = l.length := by
  intro l
  induction l with
  | nil => intro i h; simp at h
  | cons b rest ih =>
    intro i h
    cases i with
    | zero => simp [List.eraseIdx]
    | succ n =>
      have := ih n (by simpa using Nat.lt_of_succ_lt_succ h)
      simp [List.eraseIdx]
      omega

theorem get?_set_self :
    ∀ (l : List α) (i : Nat) (a : α), i < l.length → (l.set i a).get? i = some a := by
  intro l
  induction l with
  | nil => intro i a h; simp at h
  | cons b rest ih =>
    intro i a h
    cases i with
    | zero => rfl
    | succ n => exact ih n a (Nat.lt_of_succ_lt_succ h)

theorem get?_set_ne :
    ∀ (l : List α) (i j : Nat) (a : α), i ≠ j → (l.set i a).get? j = l.get? j := by
  intro l
  induction l with
  | nil => intro i j a _; simp
  | cons b rest ih =>
    intro i j a hij
    cases i with
    | zero =>
      cases j with
      | zero => exact absurd rfl hij
      | succ m => rfl
    | succ n =>
      cases j with
      | zero => rfl
      | succ m => exact ih n m a (fun h => hij (by rw [h]))

theorem mem_enumFrom :
    ∀ (l : List α) (n : Nat) (x : Nat × α), x ∈ enumFrom n l →
      ∃ k, x.1 = n + k ∧ l.get? k = some x.2 := by
  intro l
  induction l with
  | nil => intro n x h; simp [enumFrom] at h
  | cons a rest ih =>
    intro n x h
    rcases List.mem_cons.mp h with h | h
    · exact ⟨0, by simp [h]⟩
    · obtain ⟨k, hk1, hk2⟩ := ih (n + 1) x h
      exact ⟨k + 1, by omega, by simpa using hk2⟩

theorem enumFrom_map (f : α → β) :
    ∀ (l : List α) (n : Nat),
      enumFrom n (l.map f) = (enumFrom n l).map (fun x => (x.1, f x.2)) := by
  intro l
  induction l with
  | nil => intro n; rfl
  | cons a rest ih => intro n; simp [enumFrom, ih]

theorem get?_map_eq (f : α → β) :
    ∀ (l : List α) (n : Nat), (l.map f).get? n = (l.get? n).map f := by
  intro l
  induction l with
  | nil => intro n; simp
  | cons a rest ih =>
    intro n
    cases n with
    | zero => rfl
    | succ m => exact ih m

/-! ## Lemmas about the weighted draw -/

theorem totalWeight_pos (cands : List Candidate) (h0 : cands ≠ [])
    (hpos : ∀ c ∈ cands, 0 < c.2) : 0 < totalWeight cands := by
  cases cands with
  | nil => exact absurd rfl h0
  | cons c rest =>
    have hc : 0 < c.2 := hpos c (List.mem_cons_self c rest)
    simp only [totalWeight, List.map_cons, List.sum_cons]
    omega

theorem pickByCumulative_mem :
    ∀ (cands : List Candidate) (r : Nat) (c : Candidate),
      pickByCumulative cands r = some c → c ∈ cands := by
  intro cands
  induction cands with
  | nil => intro r c h; simp [pickByCumulative] at h
  | cons d rest ih =>
    intro r c h
    by_cases hr : r < d.2
    · simp [pickByCumulative, hr] at h
      exact h ▸ List.mem_cons_self d rest
    · simp [pickByCumulative, hr] at h
      exact List.mem_cons_of_mem d (ih _ c h)

theorem pickByCumulative_isSome :
    ∀ (cands : List Candidate) (r : Nat), r < totalWeight cands →
      ∃ c, pickByCumulative cands r = some c := by
  intro cands
  induction cands with
  | nil => intro r h; simp [totalWeight] at h
  | cons d rest ih =>
    intro r h
    by_cases hr : r < d.2
    · exact ⟨d, by simp [pickByCumulative, hr]⟩
    · have hrest : r - d.2 < totalWeight rest := by
        simp only [totalWeight, List.map_cons, List.sum_cons] at h
        simp only [totalWeight]
        omega
      obtain ⟨c, hc⟩ := ih (r - d.2) hrest
      exact ⟨c, by simp [pickByCumulative, hr, hc]⟩

theorem chooseWeighted_mem (cands : List Candidate) (r : Nat) (c : Candidate)
    (h : chooseWeighted cands r = some c) : c ∈ cands := by
  by_cases ht : totalWeight cands = 0
  · simp [chooseWeighted, ht] at h
  · simp only [chooseWeighted, ht, if_false] at h
    exact pickByCumulative_mem cands _ c h

theorem chooseWeighted_isSome (cands : List Candidate) (r : Nat)
    (h0 : cands ≠ []) (hpos : ∀ c ∈ cands, 0 < c.2) :
    ∃ c, chooseWeighted cands r = some c := by
  have ht : 0 < totalWeight cands := totalWeight_pos cands h0 hpos
  have hmod : r % totalWeight cands < totalWeight cands := Nat.mod_lt r ht
  obtain ⟨c, hc⟩ := pickByCumulative_isSome cands _ hmod
  refine ⟨c, ?_⟩
  have hne : totalWeight cands ≠ 0 := Nat.pos_iff_ne_zero.mp ht
  simp [chooseWeighted, hne, hc]

theorem removeDrawn_subset (cands : List Candidate) (name : String) :
    ∀ c ∈ removeDrawn cands name, c ∈ cands := by
  intro c hc
  unfold removeDrawn at hc
  cases hpos : position (fun x => x.1.2 == name) cands with
  | none => rw [hpos] at hc; exact hc
  | some i => rw [hpos] at hc; exact mem_of_mem_eraseIdx cands i c hc

theorem removeDrawn_length (cands : List Candidate) (c : Candidate)
    (hmem : c ∈ cands) : (removeDrawn cands c.1.2).length + 1 = cands.length := by
  obtain ⟨i, hi⟩ := position_of_mem (fun x => x.1.2 == c.1.2) cands c hmem (by simp)
  have hlt : i < cands.length := by
    obtain ⟨a, ha, _⟩ := position_get? _ cands i hi
    exact List.get?_eq_some.mp ha |>.1
  unfold removeDrawn
  rw [hi]
  exact length_eraseIdx_add_one cands i hlt

/-! ## Invariants of the shared weighted consent loop -/

theorem pwcAux_ne_drawError (initC : List Candidate) (rand : Nat → Nat)
    (consent : Nat → Bool) (hinit : initC ≠ []) (hpos : ∀ c ∈ initC, 0 < c.2) :
    ∀ (fuel : Nat) (cands : List Candidate) (t : Nat), cands ≠ [] →
      (∀ c ∈ cands, c ∈ initC) →
      (pickWeightedCommonAux initC rand consent cands t fuel).1 ≠ PwcResult.drawError := by
  intro fuel
  induction fuel with
  | zero => intro cands t _ _; simp [pickWeightedCommonAux]
  | succ n ih =>
    intro cands t h1 h2
    obtain ⟨c, hc⟩ :=
      chooseWeighted_isSome cands (rand t) h1 (fun c hcm => hpos c (h2 c hcm))
    have hcm : c ∈ cands := chooseWeighted_mem cands (rand t) c hc
    simp only [pickWeightedCommonAux, hc]
    by_cases hcons : consent t
    · simp [hcons]
    · simp only [hcons, if_false]
      by_cases hlen : cands.length > 1
      · simp only [hlen, if_true]
        have hrm := removeDrawn_length cands c hcm
        refine ih (removeDrawn cands c.1.2) (t + 1) ?_ ?_
        · intro hnil
          rw [hnil] at hrm
          simp at hrm
          omega
        · intro d hd
          exact h2 d (removeDrawn_subset cands c.1.2 d hd)
      · simp only [hlen, if_false]
        exact ih initC (t + 1) hinit (fun c hci => hci)

theorem pwcAux_success_mem (initC : List Candidate) (rand : Nat → Nat)
    (consent : Nat → Bool) :
    ∀ (fuel : Nat) (cands : List Candidate) (t idx : Nat),
      (∀ c ∈ cands, c ∈ initC) →
      (pickWeightedCommonAux initC rand consent cands t fuel).1 = PwcResult.success idx →
      ∃ c ∈ initC, c.1.1 = idx := by
  intro fuel
  induction fuel with
  | zero => intro cands t idx _ h; simp [pickWeightedCommonAux] at h
  | succ n ih =>
    intro cands t idx h2 h
    cases hc : chooseWeighted cands (rand t) with
    | none => rw [pickWeightedCommonAux, hc] at h; simp at h
    | some c =>
      have hcm : c ∈ cands := chooseWeighted_mem cands (rand t) c hc
      rw [pickWeightedCommonAux, hc] at h
      by_cases hcons : consent t
      · simp only [hcons, if_true] at h
        have : c.1.1 = idx := by
          simpa using h
        exact ⟨c, h2 c hcm, this⟩
      · simp only [hcons, if_false] at h
        by_cases hlen : cands.length > 1
        · simp only [hlen, if_true] at h
          exact ih (removeDrawn cands c.1.2) (t + 1) idx
            (fun d hd => h2 d (removeDrawn_subset cands c.1.2 d hd)) h
        · simp only [hlen, if_false] at h
          exact ih initC (t + 1) idx (fun c hci => hci) h

theorem pwcAux_prompt_mem (initC : List Candidate) (rand : Nat → Nat)
    (consent : Nat → Bool) :
    ∀ (fuel : Nat) (cands : List Candidate) (t : Nat) (sz k : Nat) (nm : String)
      (b : Bool), (∀ c ∈ cands, c ∈ initC) →
      Event.prompt sz k nm b ∈ (pickWeightedCommonAux initC rand consent cands t fuel).2 →
      ∃ c ∈ initC, c.1.1 = k ∧ c.1.2 = nm := by
  intro fuel
  induction fuel with
  | zero => intro cands t sz k nm b _ h; simp [pickWeightedCommonAux] at h
  | succ n ih =>
    intro cands t sz k nm b h2 h
    cases hc : chooseWeighted cands (rand t) with
    | none => rw [pickWeightedCommonAux, hc] at h; simp at h
    | some c =>
      have hcm : c ∈ cands := chooseWeighted_mem cands (rand t) c hc
      rw [pickWeightedCommonAux, hc] at h
      by_cases hcons : consent t
      · simp only [hcons, if_true, List.mem_singleton, Event.prompt.injEq] at h
        exact ⟨c, h2 c hcm, h.2.1.symm, h.2.2.1.symm⟩
      · simp only [hcons, if_false] at h
        by_cases hlen : cands.length > 1
        · simp only [hlen, if_true, Bool.false_eq_true, if_false, List.mem_cons,
            Event.prompt.injEq] at h
          rcases h with ⟨hsz, hk, hnm, hb⟩ | h
          · exact ⟨c, h2 c hcm, hk.symm, hnm.symm⟩
          · exact ih (removeDrawn cands c.1.2) (t + 1) sz k nm b
              (fun d hd => h2 d (removeDrawn_subset cands c.1.2 d hd)) h
        · simp only [hlen, Bool.false_eq_true, if_false, List.mem_cons,
            Event.prompt.injEq] at h
          rcases h with ⟨hsz, hk, hnm, hb⟩ | h | h
          · exact ⟨c, h2 c hcm, hk.symm, hnm.symm⟩
          · simp at h
          · exact ih initC (t + 1) sz k nm b (fun c hci => hci) h

theorem pwcAux_wellTimed (initC : List Candidate) (rand : Nat → Nat)
    (consent : Nat → Bool) :
    ∀ (fuel : Nat) (cands : List Candidate) (t : Nat),
      disapprovalWellTimed (pickWeightedCommonAux initC rand consent cands t fuel).2 = true := by
  intro fuel
  induction fuel with
  | zero => intro cands t; simp [pickWeightedCommonAux, disapprovalWellTimed]
  | succ n ih =>
    intro cands t
    cases hc : chooseWeighted cands (rand t) with
    | none => simp [pickWeightedCommonAux, hc, disapprovalWellTimed]
    | some c =>
      have hcm : c ∈ cands := chooseWeighted_mem cands (rand t) c hc
      have hpos : 0 < cands.length := List.length_pos_of_mem hcm
      by_cases hcons : consent t
      · simp [pickWeightedCommonAux, hc, hcons, disapprovalWellTimed]
      · by_cases hlen : cands.length > 1
        · have hsz : (cands.length == 1) = false := by
            simp only [beq_eq_false_iff_ne, ne_eq]
            omega
          simp [pickWeightedCommonAux, hc, hcons, hlen, disapprovalWellTimed, hsz,
            ih (removeDrawn cands c.1.2) (t + 1)]
        · have hsz : cands.length = 1 := by omega
          simp [pickWeightedCommonAux, hc, hcons, hlen, disapprovalWellTimed,
            startsWithDisapproval, hsz, ih initC (t + 1)]

/-! ## The candidate pools of the four weighted variants -/

theorem mem_initEven (choices : List String) (c : Candidate)
    (h : c ∈ initEven choices) :
    choices.get? c.1.1 = some c.1.2 ∧ c.2 = 1 := by
  unfold initEven enumerate at h
  obtain ⟨x, hx, hfx⟩ := List.mem_map.mp h
  obtain ⟨k, hk1, hk2⟩ := mem_enumFrom choices 0 x hx
  subst hfx
  simp only at hk1 ⊢
  rw [hk1]
  simpa using hk2

theorem mem_initWeighted (choices : List WeightedChoice) (c : Candidate)
    (h : c ∈ initWeighted choices) :
    ∃ entry, choices.get? c.1.1 = some entry ∧ entry.name = c.1.2 ∧ entry.weight = c.2 := by
  unfold initWeighted enumerate at h
  obtain ⟨x, hx, hfx⟩ := List.mem_map.mp h
  obtain ⟨k, hk1, hk2⟩ := mem_enumFrom choices 0 x hx
  subst hfx
  simp only at hk1 ⊢
  rw [hk1]
  exact ⟨x.2, by simpa using hk2, rfl, rfl⟩

theorem mem_initInventory (choices : List InventoryChoice) (c : Candidate)
    (h : c ∈ initInventory choices) :
    ∃ entry, choices.get? c.1.1 = some entry ∧ 0 < entry.tickets ∧
      entry.name = c.1.2 ∧ entry.tickets = c.2 := by
  unfold initInventory enumerate at h
  obtain ⟨x, hx, hfx⟩ := List.mem_map.mp h
  obtain ⟨hxmem, hxpos⟩ := List.mem_filter.mp hx
  obtain ⟨k, hk1, hk2⟩ := mem_enumFrom choices 0 x hxmem
  subst hfx
  simp only at hk1 ⊢
  rw [hk1]
  exact ⟨x.2, by simpa using hk2, by simpa using hxpos, rfl, rfl⟩

theorem mem_initLottery (choices : List LotteryChoice) (c : Candidate)
    (h : c ∈ initLottery choices) :
    ∃ entry, choices.get? c.1.1 = some entry ∧ 0 < entry.tickets ∧
      entry.name = c.1.2 ∧ entry.tickets = c.2 := by
  unfold initLottery enumerate at h
  obtain ⟨x, hx, hfx⟩ := List.mem_map.mp h
  obtain ⟨hxmem, hxpos⟩ := List.mem_filter.mp hx
  obtain ⟨k, hk1, hk2⟩ := mem_enumFrom choices 0 x hxmem
  subst hfx
  simp only at hk1 ⊢
  rw [hk1]
  exact ⟨x.2, by simpa using hk2, by simpa using hxpos, rfl, rfl⟩

theorem initEven_pos (choices : List String) :
    ∀ c ∈ initEven choices, 0 < c.2 := by
  intro c h
  have := mem_initEven choices c h
  omega

theorem initInventory_pos (choices : List InventoryChoice) :
    ∀ c ∈ initInventory choices, 0 < c.2 := by
  intro c h
  obtain ⟨entry, _, hpos, _, ht⟩ := mem_initInventory choices c h
  omega

theorem initLottery_pos (choices : List LotteryChoice) :
    ∀ c ∈ initLottery choices, 0 < c.2 := by
  intro c h
  obtain ⟨entry, _, hpos, _, ht⟩ := mem_initLottery choices c h
  omega

/-! ## Even versus Weighted, Gaussian, LRU and configuration lemmas -/

theorem initEven_eq_initWeighted (choices : List String) :
    initEven choices = initWeighted (choices.map (fun name => ⟨name, 1⟩)) := by
  unfold initEven initWeighted enumerate
  rw [enumFrom_map, List.map_map]
  rfl

theorem gaussianLoop_position (choices : List String) (gauss : Nat → Nat)
    (consent : Nat → Bool) :
    ∀ (fuel : Nat) (cands : List String) (t idx : Nat),
      gaussianLoop choices gauss consent cands t fuel = some idx →
      ∃ v, position (fun x => x == v) choices = some idx := by
  intro fuel
  induction fuel with
  | zero => intro cands t idx h; simp [gaussianLoop] at h
  | succ n ih =>
    intro cands t idx h
    rw [gaussianLoop] at h
    cases hg : cands.get? (gauss t) with
    | none =>
      rw [hg] at h
      exact ih cands (t + 1) idx h
    | some value =>
      rw [hg] at h
      by_cases hcons : consent t
      · simp only [hcons, if_true] at h
        exact ⟨value, h⟩
      · simp only [hcons, Bool.false_eq_true, if_false] at h
        by_cases hlen : cands.length > 1
        · simp only [hlen, if_true] at h
          cases hp : position (fun x => x == value) cands with
          | none => rw [hp] at h; simp at h
          | some i =>
            rw [hp] at h
            exact ih (cands.eraseIdx i) (t + 1) idx h
        · simp only [hlen, if_false] at h
          exact ih choices (t + 1) idx h

theorem scanForConsent_spec (consent : Nat → Bool) :
    ∀ (l : List String) (i t i0 : Nat), i < l.length →
      (∀ j, j < i → consent (t + j) = false) → consent (t + i) = true →
      scanForConsent consent l t i0 = some (i0 + i) := by
  intro l
  induction l with
  | nil => intro i t i0 h; simp at h
  | cons a rest ih =>
    intro i t i0 hlen hrej hacc
    cases i with
    | zero =>
      have hct : consent t = true := by simpa using hacc
      simp [scanForConsent, hct]
    | succ k =>
      have h0 : consent t = false := by
        have h1 := hrej 0 (Nat.succ_pos k)
        simpa using h1
      rw [scanForConsent, h0]
      simp only [Bool.false_eq_true, if_false]
      have hrest := ih k (t + 1) (i0 + 1)
        (by simpa using Nat.lt_of_succ_lt_succ hlen)
        (fun j hj => by
          have h2 := hrej (j + 1) (Nat.succ_lt_succ hj)
          have e : t + (j + 1) = t + 1 + j := by omega
          rw [e] at h2
          exact h2)
        (by
          have e : t + (k + 1) = t + 1 + k := by omega
          rw [e] at hacc
          exact hacc)
      rw [hrest]
      have e : i0 + 1 + k = i0 + (k + 1) := by omega
      rw [e]

theorem configSet_same :
    ∀ (config : List (String × ConfigCategory)) (key : String) (v : ConfigCategory),
      configGet config key = some v → configSet config key v = config := by
  intro config
  induction config with
  | nil => intro key v h; simp [configGet] at h
  | cons kv rest ih =>
    intro key v h
    obtain ⟨k, v0⟩ := kv
    by_cases hk : k == key
    · simp only [configGet, hk, if_true, Option.some.injEq] at h
      simp [configSet, hk, h]
    · simp only [configGet, hk, Bool.false_eq_true, if_false] at h
      simp [configSet, hk, ih key v h]

/-! ## Claim theorems -/

/-- C3 (corrected): the draw in the shared weighted-consent core never fails
provided the initial pool is nonempty and every entry in it has positive
weight; the pools built by the Even, Inventory and Lottery variants always
have all-positive weights (Inventory and Lottery filter zero-ticket entries
by construction, Even weights everything 1), so for them a nonempty pool
suffices.  The Weighted variant does not exclude zero-weight entries, so its
invocations are not covered (see the counterexample). -/
theorem c3_draw_never_fails_on_positive_pools :
    (∀ (initC : List Candidate) (rand : Nat → Nat) (consent : Nat → Bool) (fuel : Nat),
      initC ≠ [] → (∀ c ∈ initC, 0 < c.2) →
      (pick_weighted_common initC rand consent fuel).1 ≠ PwcResult.drawError) ∧
    (∀ choices, ∀ c ∈ initEven choices, 0 < c.2) ∧
    (∀ choices, ∀ c ∈ initInventory choices, 0 < c.2) ∧
    (∀ choices, ∀ c ∈ initLottery choices, 0 < c.2) := by
  refine ⟨?_, initEven_pos, initInventory_pos, initLottery_pos⟩
  intro initC rand consent fuel h1 h2
  exact pwcAux_ne_drawError initC rand consent h1 h2 fuel initC 0 h1 (fun c hc => hc)

/-- C3 counterexample: invoked from the Weighted variant, the core's pool is
not free of zero-weight entries, and the weighted draw's error branch is
reachable: with choices `[("a",1),("b",0)]` and a user who rejects "a", the
pool shrinks to the lone zero-weight entry and the next draw fails. -/
theorem c3_draw_error_reachable_from_weighted :
    (pick_weighted_common (initWeighted [⟨"a", 1⟩, ⟨"b", 0⟩])
      (fun _ => 0) (fun _ => false) 5).1 = PwcResult.drawError := by
  decide

/-- C3 witness: a concrete instantiation of the amended claim — a singleton
Even pool, rejected repeatedly, never reaches the draw-failure branch. -/
theorem c3_draw_never_fails_witness :
    initEven ["a"] ≠ [] ∧
    (pick_weighted_common (initEven ["a"]) (fun _ => 0) (fun _ => false) 3).1 ≠
      PwcResult.drawError :=
  ⟨by decide,
    c3_draw_never_fails_on_positive_pools.1 (initEven ["a"]) (fun _ => 0)
      (fun _ => false) 3 (by decide) (by decide)⟩

/-- C4: `pick` fails exactly when the named category has no entry in the
configuration mapping; the failure is the single error kind (a `ValueError`)
carrying the message "Category {name} not found in config.", and in that
case the configuration mapping is returned unchanged. -/
theorem c4_pick_error_iff_category_missing (config : List (String × ConfigCategory))
    (category : String) (o : Oracles) (fuel : Nat) :
    (configGet config category = none →
      pick config category o fuel =
        (Except.error ⟨"Category " ++ category ++ " not found in config."⟩, config)) ∧
    (∀ cat, configGet config category = some cat →
      ∃ r, (pick config category o fuel).1 = Except.ok r) := by
  constructor
  · intro h
    simp [pick, h]
  · intro cat h
    cases hp : pickCategory cat o fuel with
    | none => exact ⟨none, by simp [pick, h, hp]⟩
    | some nc => exact ⟨some nc.1, by simp [pick, h, hp]⟩

/-- C4 witness: on a concrete one-category configuration, looking up a
missing name yields exactly the specified error and leaves the configuration
unchanged, while looking up the present name succeeds. -/
theorem c4_pick_error_iff_category_missing_witness :
    pick [("things", ConfigCategory.even ["this"])] "missing"
        ⟨fun _ => 0, fun _ => 0, fun _ => true⟩ 1 =
      (Except.error ⟨"Category missing not found in config."⟩,
        [("things", ConfigCategory.even ["this"])]) ∧
    (∃ r, (pick [("things", ConfigCategory.even ["this"])] "things"
        ⟨fun _ => 0, fun _ => 0, fun _ => true⟩ 1).1 = Except.ok r) := by
  constructor
  · have h := (c4_pick_error_iff_category_missing
      [("things", ConfigCategory.even ["this"])] "missing"
      ⟨fun _ => 0, fun _ => 0, fun _ => true⟩ 1).1 rfl
    rw [h]
    rfl
  · exact (c4_pick_error_iff_category_missing
      [("things", ConfigCategory.even ["this"])] "things"
      ⟨fun _ => 0, fun _ => 0, fun _ => true⟩ 1).2 (ConfigCategory.even ["this"]) rfl

/-- C5: an Even pick over `choices` is the Weighted pick over the same
choices with every weight fixed at 1: the two variants build equal candidate
pools, and under the same random values and the same consent answers they
return the same result. -/
theorem c5_even_is_weighted_with_unit_weights (choices : List String)
    (rand : Nat → Nat) (consent : Nat → Bool) (fuel : Nat) :
    initEven choices = initWeighted (choices.map (fun name => ⟨name, 1⟩)) ∧
    pick_even choices rand consent fuel =
      pick_weighted (choices.map (fun name => ⟨name, 1⟩)) rand consent fuel := by
  refine ⟨initEven_eq_initWeighted choices, ?_⟩
  unfold pick_even pick_weighted
  rw [← initEven_eq_initWeighted choices]
  cases hres : (pick_weighted_common (initEven choices) rand consent fuel).1 with
  | success idx =>
    simp only
    rw [get?_map_eq]
    cases choices.get? idx <;> rfl
  | drawError => rfl
  | timeout => rfl

/-- C8: in every run of the shared weighted-consent core, the disapproval
notification (the fixed message "🤨" passed to `ui.info`) is emitted exactly
once immediately after a rejection that left the pool with its single last
candidate, and never while more than one candidate remains. -/
theorem c8_disapproval_exactly_on_last_rejection (initC : List Candidate)
    (rand : Nat → Nat) (consent : Nat → Bool) (fuel : Nat) :
    disapprovalWellTimed (pick_weighted_common initC rand consent fuel).2 = true :=
  pwcAux_wellTimed initC rand consent fuel initC 0

/-- C9: a pick on an Even or Weighted category leaves the configuration —
in particular that category's persisted choices list — exactly unchanged,
no matter how many candidates were rejected before acceptance. -/
theorem c9_even_weighted_never_mutate (config : List (String × ConfigCategory))
    (category : String) (o : Oracles) (fuel : Nat)
    (h : (∃ cs, configGet config category = some (ConfigCategory.even cs)) ∨
         (∃ ws, configGet config category = some (ConfigCategory.weighted ws))) :
    (pick config category o fuel).2 = config := by
  rcases h with ⟨cs, h⟩ | ⟨ws, h⟩
  · cases hp : pick_even cs o.rand o.consent fuel with
    | none => simp [pick, h, pickCategory, hp]
    | some name =>
      simp [pick, h, pickCategory, hp, configSet_same config category _ h]
  · cases hp : pick_weighted ws o.rand o.consent fuel with
    | none => simp [pick, h, pickCategory, hp]
    | some name =>
      simp [pick, h, pickCategory, hp, configSet_same config category _ h]

/-- C9 witness: a concrete Even pick in which "this" is rejected and "that"
accepted returns the configuration unchanged. -/
theorem c9_even_weighted_never_mutate_witness :
    (pick [("things", ConfigCategory.even ["this", "that"])] "things"
      ⟨fun _ => 0, fun _ => 0, fun t => t == 1⟩ 2).2 =
      [("things", ConfigCategory.even ["this", "that"])] :=
  c9_even_weighted_never_mutate [("things", ConfigCategory.even ["this", "that"])]
    "things" ⟨fun _ => 0, fun _ => 0, fun t => t == 1⟩ 2
    (Or.inl ⟨["this", "that"], rfl⟩)

/-- C6: whenever a Gaussian pick completes, the returned string is the
accepted name, located in the persisted list by value (its first position),
and the persisted list becomes the original with that occurrence removed and
the name appended at the end, order otherwise preserved. -/
theorem c6_gaussian_accept_moves_to_end (choices : List String) (gauss : Nat → Nat)
    (consent : Nat → Bool) (fuel : Nat) (name : String) (out : List String)
    (h : pick_gaussian choices gauss consent fuel = some (name, out)) :
    ∃ i, position (fun x => x == name) choices = some i ∧
      choices.get? i = some name ∧ out = choices.eraseIdx i ++ [name] := by
  cases hg : gaussianLoop choices gauss consent choices 0 fuel with
  | none => simp [pick_gaussian, hg] at h
  | some index =>
    simp only [pick_gaussian, hg] at h
    cases hv : choices.get? index with
    | none => rw [hv] at h; simp at h
    | some value =>
      rw [hv] at h
      simp only [Option.some.injEq, Prod.mk.injEq] at h
      obtain ⟨hval, hout⟩ := h
      subst hval
      obtain ⟨v, hp⟩ := gaussianLoop_position choices gauss consent fuel choices 0 index hg
      obtain ⟨a, ha, hpa⟩ := position_get? _ choices index hp
      have hav : a = v := eq_of_beq hpa
      have havalue : a = value := Option.some.inj (ha.symm.trans hv)
      have hvv : v = value := by rw [← hav]; exact havalue
      rw [hvv] at hp
      exact ⟨index, hp, hv, hout.symm⟩

/-- C6 witness: a concrete Gaussian pick that samples index 1 and accepts
immediately moves "b" to the end of the list. -/
theorem c6_gaussian_accept_moves_to_end_witness :
    pick_gaussian ["a", "b", "c"] (fun _ => 1) (fun _ => true) 1 =
      some ("b", ["a", "c", "b"]) ∧
    ∃ i, position (fun x => x == "b") ["a", "b", "c"] = some i ∧
      (["a", "b", "c"] : List String).get? i = some "b" ∧
      ["a", "c", "b"] = (["a", "b", "c"] : List String).eraseIdx i ++ ["b"] :=
  ⟨by decide,
    c6_gaussian_accept_moves_to_end ["a", "b", "c"] (fun _ => 1) (fun _ => true) 1
      "b" ["a", "c", "b"] (by decide)⟩

/-- C7: when the LRU scan (whose prompts consume consent answers
`t, t+1, …`) is rejected at every position before `i` and accepted at
position `i`, the pick returns the name at position `i` and the persisted
list becomes the original with that element removed and appended at the
end, order otherwise preserved. -/
theorem c7_lru_accept_at_position (choices : List String) (consent : Nat → Bool)
    (fuel t i : Nat) (nm : String)
    (h1 : choices.get? i = some nm)
    (h2 : ∀ j, j < i → consent (t + j) = false)
    (h3 : consent (t + i) = true) :
    pick_lru choices consent (fuel + 1) t = some (nm, choices.eraseIdx i ++ [nm]) := by
  have hlen : i < choices.length := (List.get?_eq_some.mp h1).1
  have hscan := scanForConsent_spec consent choices i t 0 hlen h2 h3
  rw [Nat.zero_add] at hscan
  simp only [pick_lru, hscan, h1]

/-- C7 witness: the claim's concrete scenario — rejecting "this" then
accepting "that" returns "that" and reorders the list to
["this", "the other", "that"]. -/
theorem c7_lru_accept_at_position_witness :
    pick_lru ["this", "that", "the other"] (fun n => n == 1) 1 0 =
      some ("that", ["this", "the other", "that"]) := by
  have h := c7_lru_accept_at_position ["this", "that", "the other"]
    (fun n => n == 1) 0 0 1 "that" rfl
    (fun j hj => by
      have hj0 : j = 0 := by omega
      subst hj0
      rfl)
    rfl
  exact h

/-! ## Success characterizations of the Inventory and Lottery picks -/

theorem pick_inventory_success (choices : List InventoryChoice) (rand : Nat → Nat)
    (consent : Nat → Bool) (fuel : Nat) (res : String) (out : List InventoryChoice)
    (h : pick_inventory choices rand consent fuel = some (res, out)) :
    ∃ i entry, choices.get? i = some entry ∧ 0 < entry.tickets ∧ entry.name = res ∧
      out = choices.set i ⟨entry.name, entry.tickets - 1⟩ := by
  cases hres : (pick_weighted_common (initInventory choices) rand consent fuel).1 with
  | drawError => simp [pick_inventory, hres] at h
  | timeout => simp [pick_inventory, hres] at h
  | success index =>
    obtain ⟨c, hcmem, hcidx⟩ := pwcAux_success_mem (initInventory choices) rand consent
      fuel (initInventory choices) 0 index (fun c hc => hc) hres
    obtain ⟨entry, hget, hpos, hname, hticket⟩ := mem_initInventory choices c hcmem
    rw [hcidx] at hget
    simp only [pick_inventory, hres, hget, Option.some.injEq, Prod.mk.injEq] at h
    obtain ⟨hres2, hout⟩ := h
    exact ⟨index, entry, hget, hpos, hres2, hout.symm⟩

theorem pick_lottery_success (choices : List LotteryChoice) (rand : Nat → Nat)
    (consent : Nat → Bool) (fuel : Nat) (res : String) (out : List LotteryChoice)
    (h : pick_lottery choices rand consent fuel = some (res, out)) :
    ∃ i entry, choices.get? i = some entry ∧ 0 < entry.tickets ∧ entry.name = res ∧
      out = (choices.map (fun c => { c with tickets := c.tickets + c.weight })).set i
        ⟨entry.name, 0, entry.weight⟩ := by
  cases hres : (pick_weighted_common (initLottery choices) rand consent fuel).1 with
  | drawError => simp [pick_lottery, hres] at h
  | timeout => simp [pick_lottery, hres] at h
  | success index =>
    obtain ⟨c, hcmem, hcidx⟩ := pwcAux_success_mem (initLottery choices) rand consent
      fuel (initLottery choices) 0 index (fun c hc => hc) hres
    obtain ⟨entry, hget, hpos, hname, hticket⟩ := mem_initLottery choices c hcmem
    rw [hcidx] at hget
    have haccr : (choices.map (fun c => { c with tickets := c.tickets + c.weight :
        LotteryChoice })).get? index =
        some ⟨entry.name, entry.tickets + entry.weight, entry.weight⟩ := by
      rw [get?_map_eq, hget]
      rfl
    simp only [pick_lottery, hres, haccr, Option.some.injEq, Prod.mk.injEq] at h
    obtain ⟨hres2, hout⟩ := h
    exact ⟨index, entry, hget, hpos, hres2, hout.symm⟩

/-- C1: an accepted Lottery pick zeroes exactly the winner's tickets, adds
to every other entry (eligible or not) exactly its own weight, and only
entries whose tickets were positive before the pick are ever drawn and
prompted. -/
theorem c1_lottery_accepted_pick (choices : List LotteryChoice) (rand : Nat → Nat)
    (consent : Nat → Bool) (fuel : Nat) (res : String) (out : List LotteryChoice)
    (h : pick_lottery choices rand consent fuel = some (res, out)) :
    (∃ i entry, choices.get? i = some entry ∧ 0 < entry.tickets ∧ entry.name = res ∧
      out.get? i = some ⟨entry.name, 0, entry.weight⟩ ∧
      ∀ j, j ≠ i → out.get? j =
        (choices.get? j).map (fun c => ⟨c.name, c.tickets + c.weight, c.weight⟩)) ∧
    (∀ sz k nm b, Event.prompt sz k nm b ∈
        (pick_weighted_common (initLottery choices) rand consent fuel).2 →
      ∃ entry, choices.get? k = some entry ∧ 0 < entry.tickets ∧ entry.name = nm) := by
  constructor
  · obtain ⟨i, entry, hget, hpos, hname, hout⟩ :=
      pick_lottery_success choices rand consent fuel res out h
    have hilen : i < choices.length := (List.get?_eq_some.mp hget).1
    have hmaplen :
        i < (choices.map (fun c =>
          { c with tickets := c.tickets + c.weight : LotteryChoice })).length := by
      rw [List.length_map]
      exact hilen
    refine ⟨i, entry, hget, hpos, hname, ?_, ?_⟩
    · rw [hout]
      exact get?_set_self _ i _ hmaplen
    · intro j hj
      rw [hout, get?_set_ne _ i j _ (fun e => hj e.symm), get?_map_eq]
  · intro sz k nm b hmem
    obtain ⟨c, hcmem, hck, hcnm⟩ := pwcAux_prompt_mem (initLottery choices) rand consent
      fuel (initLottery choices) 0 sz k nm b (fun c hc => hc) hmem
    obtain ⟨entry, hget, hpos, hname, _⟩ := mem_initLottery choices c hcmem
    rw [hck] at hget
    exact ⟨entry, hget, hpos, by rw [hname, hcnm]⟩

/-- C1 witness: the claim's concrete scenario — immediate acceptance of
"this" over [("this",1,1),("that",2,4),("the other",3,9)] yields final
tickets [0,6,12]. -/
theorem c1_lottery_accepted_pick_witness :
    pick_lottery [⟨"this", 1, 1⟩, ⟨"that", 2, 4⟩, ⟨"the other", 3, 9⟩]
      (fun _ => 0) (fun _ => true) 1 =
      some ("this", [⟨"this", 0, 1⟩, ⟨"that", 6, 4⟩, ⟨"the other", 12, 9⟩]) ∧
    (∃ i entry,
      ([⟨"this", 1, 1⟩, ⟨"that", 2, 4⟩, ⟨"the other", 3, 9⟩] :
        List LotteryChoice).get? i = some entry ∧
      0 < entry.tickets ∧ entry.name = "this" ∧
      ([⟨"this", 0, 1⟩, ⟨"that", 6, 4⟩, ⟨"the other", 12, 9⟩] :
        List LotteryChoice).get? i = some ⟨entry.name, 0, entry.weight⟩ ∧
      ∀ j, j ≠ i →
        ([⟨"this", 0, 1⟩, ⟨"that", 6, 4⟩, ⟨"the other", 12, 9⟩] :
          List LotteryChoice).get? j =
        (([⟨"this", 1, 1⟩, ⟨"that", 2, 4⟩, ⟨"the other", 3, 9⟩] :
          List LotteryChoice).get? j).map
            (fun c => ⟨c.name, c.tickets + c.weight, c.weight⟩)) :=
  ⟨by decide,
    (c1_lottery_accepted_pick [⟨"this", 1, 1⟩, ⟨"that", 2, 4⟩, ⟨"the other", 3, 9⟩]
      (fun _ => 0) (fun _ => true) 1 "this"
      [⟨"this", 0, 1⟩, ⟨"that", 6, 4⟩, ⟨"the other", 12, 9⟩] (by decide)).1⟩

/-- C2: an accepted Inventory pick decrements exactly the winner's tickets
by 1 (the winner had positive tickets, so the decrement is exact), leaves
every other entry unchanged, and only entries whose tickets were positive
before the pick are ever drawn and prompted. -/
theorem c2_inventory_accepted_pick (choices : List InventoryChoice) (rand : Nat → Nat)
    (consent : Nat → Bool) (fuel : Nat) (res : String) (out : List InventoryChoice)
    (h : pick_inventory choices rand consent fuel = some (res, out)) :
    (∃ i entry, choices.get? i = some entry ∧ 0 < entry.tickets ∧ entry.name = res ∧
      out.get? i = some ⟨entry.name, entry.tickets - 1⟩ ∧
      ∀ j, j ≠ i → out.get? j = choices.get? j) ∧
    (∀ sz k nm b, Event.prompt sz k nm b ∈
        (pick_weighted_common (initInventory choices) rand consent fuel).2 →
      ∃ entry, choices.get? k = some entry ∧ 0 < entry.tickets ∧ entry.name = nm) := by
  constructor
  · obtain ⟨i, entry, hget, hpos, hname, hout⟩ :=
      pick_inventory_success choices rand consent fuel res out h
    have hilen : i < choices.length := (List.get?_eq_some.mp hget).1
    refine ⟨i, entry, hget, hpos, hname, ?_, ?_⟩
    · rw [hout]
      exact get?_set_self _ i _ hilen
    · intro j hj
      rw [hout, get?_set_ne _ i j _ (fun e => hj e.symm)]
  · intro sz k nm b hmem
    obtain ⟨c, hcmem, hck, hcnm⟩ := pwcAux_prompt_mem (initInventory choices) rand consent
      fuel (initInventory choices) 0 sz k nm b (fun c hc => hc) hmem
    obtain ⟨entry, hget, hpos, hname, _⟩ := mem_initInventory choices c hcmem
    rw [hck] at hget
    exact ⟨entry, hget, hpos, by rw [hname, hcnm]⟩

/-- C2 witness: the spec's concrete Inventory scenario — over
[("this",0),("that",2),("the other",3)], three rejections of eligible names
followed by acceptance of "the other" yields final tickets [0,2,2]. -/
theorem c2_inventory_accepted_pick_witness :
    pick_inventory [⟨"this", 0⟩, ⟨"that", 2⟩, ⟨"the other", 3⟩]
      (fun _ => 0) (fun t => t == 3) 4 =
      some ("the other", [⟨"this", 0⟩, ⟨"that", 2⟩, ⟨"the other", 2⟩]) ∧
    (∃ i entry,
      ([⟨"this", 0⟩, ⟨"that", 2⟩, ⟨"the other", 3⟩] :
        List InventoryChoice).get? i = some entry ∧
      0 < entry.tickets ∧ entry.name = "the other" ∧
      ([⟨"this", 0⟩, ⟨"that", 2⟩, ⟨"the other", 2⟩] :
        List InventoryChoice).get? i = some ⟨entry.name, entry.tickets - 1⟩ ∧
      ∀ j, j ≠ i →
        ([⟨"this", 0⟩, ⟨"that", 2⟩, ⟨"the other", 2⟩] :
          List InventoryChoice).get? j =
        ([⟨"this", 0⟩, ⟨"that", 2⟩, ⟨"the other", 3⟩] :
          List InventoryChoice).get? j) :=
  ⟨by decide,
    (c2_inventory_accepted_pick [⟨"this", 0⟩, ⟨"that", 2⟩, ⟨"the other", 3⟩]
      (fun _ => 0) (fun t => t == 3) 4 "the other"
      [⟨"this", 0⟩, ⟨"that", 2⟩, ⟨"the other", 2⟩] (by decide)).1⟩

/-- C10: the index returned by the shared weighted-consent core is the
accepted candidate's original index in the full persisted choices list, so
the Inventory decrement and the Lottery ticket reset land on exactly the
accepted entry — an entry with positive tickets whose name is the returned
name — even when ineligible (zero-ticket) entries precede it. -/
theorem c10_core_index_is_original_index :
    (∀ (choices : List InventoryChoice) (rand : Nat → Nat) (consent : Nat → Bool)
      (fuel : Nat) (res : String) (out : List InventoryChoice),
      pick_inventory choices rand consent fuel = some (res, out) →
      ∃ i entry, choices.get? i = some entry ∧ 0 < entry.tickets ∧ entry.name = res ∧
        out = choices.set i ⟨entry.name, entry.tickets - 1⟩) ∧
    (∀ (choices : List LotteryChoice) (rand : Nat → Nat) (consent : Nat → Bool)
      (fuel : Nat) (res : String) (out : List LotteryChoice),
      pick_lottery choices rand consent fuel = some (res, out) →
      ∃ i entry, choices.get? i = some entry ∧ 0 < entry.tickets ∧ entry.name = res ∧
        out = (choices.map (fun c => { c with tickets := c.tickets + c.weight })).set i
          ⟨entry.name, 0, entry.weight⟩) :=
  ⟨pick_inventory_success, pick_lottery_success⟩

/-- C10 witness: with a zero-ticket entry at position 0, the accepted
entry's original index 1 is returned and the mutation lands on it, not on a
position shifted by the filtering. -/
theorem c10_core_index_is_original_index_witness :
    pick_inventory [⟨"z", 0⟩, ⟨"a", 2⟩] (fun _ => 0) (fun _ => true) 1 =
      some ("a", [⟨"z", 0⟩, ⟨"a", 1⟩]) ∧
    (∃ i entry, ([⟨"z", 0⟩, ⟨"a", 2⟩] : List InventoryChoice).get? i = some entry ∧
      0 < entry.tickets ∧ entry.name = "a" ∧
      ([⟨"z", 0⟩, ⟨"a", 1⟩] : List InventoryChoice) =
        ([⟨"z", 0⟩, ⟨"a", 2⟩] : List InventoryChoice).set i
          ⟨entry.name, entry.tickets - 1⟩) ∧
    (∃ i entry, ([⟨"z", 0, 5⟩, ⟨"a", 2, 3⟩] : List LotteryChoice).get? i = some entry ∧
      0 < entry.tickets ∧ entry.name = "a" ∧
      ([⟨"z", 5, 5⟩, ⟨"a", 0, 3⟩] : List LotteryChoice) =
        (([⟨"z", 0, 5⟩, ⟨"a", 2, 3⟩] : List LotteryChoice).map
          (fun c => { c with tickets := c.tickets + c.weight })).set i
          ⟨entry.name, 0, entry.weight⟩) :=
  ⟨by decide,
    c10_core_index_is_original_index.1 [⟨"z", 0⟩, ⟨"a", 2⟩] (fun _ => 0)
      (fun _ => true) 1 "a" [⟨"z", 0⟩, ⟨"a", 1⟩] (by decide),
    c10_core_index_is_original_index.2 [⟨"z", 0, 5⟩, ⟨"a", 2, 3⟩] (fun _ => 0)
      (fun _ => true) 1 "a" [⟨"z", 5, 5⟩, ⟨"a", 0, 3⟩] (by decide)⟩
